import Mathlib

/-!
Verification of the two scripts in `ml-wc-practitioners-catalog`:
`catalog/optimize-images.py` (image optimizer) and
`plugin-files/create-plugin-zip.py` (plugin packager).

The Python scripts are shallowly embedded: text is `List Char`, sizes are
rationals, PIL images are a mode string plus decoded pixel data, and the
file system touched by the packager is an association list from file names
to zip archives.
-/

namespace MLWC

/-! ## PIL image model

A decoded image: `mode` is PIL's mode string (`"RGB"`, `"RGBA"`, `"P"`, ...),
`px` the decoded pixel data.  A pixel always carries four channels; for an
image whose mode has no alpha channel the `a` field is the fully-opaque 255
by convention, and for a mode other than `RGB`/`RGBA` the `r`,`g`,`b` fields
hold the RGB rendering PIL's `convert('RGB')` would produce while `a` holds
the mode's alpha where it has one, as in `LA` (the optimizer never inspects
such an image's raw bands, so this is all it can observe).
`optimize_image` re-encodes as PNG, which is lossless: the decoded output
equals the in-memory image, so the transform is a pure function on `Img`. -/

structure Pix where
  r : Nat
  g : Nat
  b : Nat
  a : Nat
deriving DecidableEq

structure Img where
  mode : String
  px : List Pix
deriving DecidableEq

/-- `img.split()[3]` for an RGBA image: the alpha band. -/
def Img.alphaBand (img : Img) : List Nat :=
  img.px.map (fun p => p.a)

/-- PIL's `band.getextrema()`: `(min, max)` of a band, `none` on an empty
band (a real PNG always has at least one pixel). -/
def getextrema : List Nat → Option (Nat × Nat)
  | [] => none
  | v :: vs => some (vs.foldl min v, vs.foldl max v)

/-- PIL's `img.convert('RGB')`: drop the alpha channel (no compositing)
and switch to mode `"RGB"`. -/
def Img.convertRGB (img : Img) : Img :=
  { mode := "RGB", px := img.px.map (fun p => { r := p.r, g := p.g, b := p.b, a := 255 }) }

/-- `optimize_image` from `catalog/optimize-images.py` (lines 22-39), as a
function on decoded images: an RGBA image whose alpha band is constantly
255 is converted to RGB; any mode other than RGBA and RGB is converted to
RGB; the PNG re-encode is lossless and keeps the result unchanged. -/
def optimize_image (img : Img) : Img :=
  if img.mode = "RGBA" then
    if getextrema img.alphaBand = some (255, 255) then img.convertRGB else img
  else if img.mode ≠ "RGB" then
    img.convertRGB
  else
    img

/-! ### Band extrema lemmas -/

theorem foldl_min_le_init (l : List Nat) (b : Nat) : l.foldl min b ≤ b := by
  induction l generalizing b with
  | nil => simp
  | cons x xs ih =>
      simp only [List.foldl_cons]
      exact le_trans (ih (min b x)) (min_le_left b x)

theorem foldl_min_const (l : List Nat) (b : Nat) (h : ∀ x ∈ l, x = b) :
    l.foldl min b = b := by
  induction l with
  | nil => rfl
  | cons x xs ih =>
      have hx : x = b := h x (by simp)
      simp only [List.foldl_cons, hx, min_self]
      exact ih (fun y hy => h y (by simp [hy]))

theorem foldl_max_const (l : List Nat) (b : Nat) (h : ∀ x ∈ l, x = b) :
    l.foldl max b = b := by
  induction l with
  | nil => rfl
  | cons x xs ih =>
      have hx : x = b := h x (by simp)
      simp only [List.foldl_cons, hx, max_self]
      exact ih (fun y hy => h y (by simp [hy]))

theorem getextrema_const_255 (l : List Nat) (hne : l ≠ [])
    (h : ∀ x ∈ l, x = 255) : getextrema l = some (255, 255) := by
  cases l with
  | nil => exact absurd rfl hne
  | cons v vs =>
      have hv : v = 255 := h v (by simp)
      have hvs : ∀ x ∈ vs, x = 255 := fun y hy => h y (by simp [hy])
      simp [getextrema, hv, foldl_min_const vs 255 hvs, foldl_max_const vs 255 hvs]

theorem foldl_min_le_mem (l : List Nat) (b : Nat) (x : Nat) (hx : x ∈ l) :
    l.foldl min b ≤ x := by
  induction l generalizing b with
  | nil => cases hx
  | cons y ys ih =>
      simp only [List.foldl_cons]
      rcases List.mem_cons.mp hx with h | h
      · subst h
        exact le_trans (foldl_min_le_init ys (min b x)) (min_le_right b x)
      · exact ih (min b y) h

theorem getextrema_min_below (l : List Nat) (x : Nat) (hx : x ∈ l)
    (hlt : x < 255) : getextrema l ≠ some (255, 255) := by
  cases l with
  | nil => simp [getextrema]
  | cons v vs =>
      intro hcontra
      simp only [getextrema, Option.some.injEq, Prod.mk.injEq] at hcontra
      obtain ⟨hmin255, _⟩ := hcontra
      have hmin : vs.foldl min v ≤ x := by
        rcases List.mem_cons.mp hx with h | h
        · subst h; exact foldl_min_le_init vs x
        · exact foldl_min_le_mem vs v x h
      omega

/-! ### Claims C1, C2, C9 -/

/-- C1: an RGBA input whose alpha channel is fully opaque (every alpha value
equals 255; a PNG has at least one pixel) is converted by `optimize_image`
to mode RGB, and any input in a mode other than RGB and RGBA is likewise
converted to RGB. -/
theorem optimize_image_drops_opaque_alpha (img : Img)
    (hmode : img.mode = "RGBA") (hne : img.px ≠ [])
    (hop : ∀ p ∈ img.px, p.a = 255) :
    (optimize_image img).mode = "RGB"
    ∧ ∀ j : Img, j.mode ≠ "RGBA" → j.mode ≠ "RGB" →
        (optimize_image j).mode = "RGB" := by
  constructor
  · have hband : ∀ x ∈ img.alphaBand, x = 255 := by
      intro x hx
      obtain ⟨p, hp, rfl⟩ := List.mem_map.mp hx
      exact hop p hp
    have hbandne : img.alphaBand ≠ [] := by
      simp [Img.alphaBand, hne]
    rw [optimize_image, if_pos hmode,
      if_pos (getextrema_const_255 img.alphaBand hbandne hband)]
    rfl
  · intro j hja hjr
    rw [optimize_image, if_neg hja, if_pos hjr]
    rfl

theorem optimize_image_drops_opaque_alpha_witness :
    (optimize_image ⟨"RGBA", [⟨10, 20, 30, 255⟩, ⟨1, 2, 3, 255⟩]⟩).mode = "RGB"
    ∧ (optimize_image ⟨"P", [⟨7, 7, 7, 255⟩]⟩).mode = "RGB" := by
  have h := optimize_image_drops_opaque_alpha
    ⟨"RGBA", [⟨10, 20, 30, 255⟩, ⟨1, 2, 3, 255⟩]⟩ rfl (by simp) (by decide)
  exact ⟨h.1, h.2 ⟨"P", [⟨7, 7, 7, 255⟩]⟩ (by decide) (by decide)⟩

/-- C2 as stated is false: a grayscale+alpha PNG decodes to PIL mode `LA`
and has a partially transparent alpha channel, but `optimize_image`'s
`elif img.mode != 'RGB'` branch converts it to RGB, destroying the alpha
(here: a one-pixel LA image with alpha 128 comes out as RGB with a
constant fully-opaque band). -/
theorem optimize_image_la_loses_alpha :
    (optimize_image ⟨"LA", [⟨7, 7, 7, 128⟩]⟩).mode = "RGB"
    ∧ (optimize_image ⟨"LA", [⟨7, 7, 7, 128⟩]⟩).alphaBand = [255]
    ∧ (128 : Nat) ≠ 255 :=
  ⟨by decide, by decide, by decide⟩

/-- C2 amended: an RGBA-mode input with a partially transparent alpha
channel (some 8-bit alpha value below fully-opaque 255) is left unchanged
by `optimize_image`; in particular the output is still mode RGBA with the
same alpha band.  (Alpha-carrying inputs in other modes, such as LA, are
instead converted to RGB and lose their alpha.) -/
theorem optimize_image_keeps_used_alpha (img : Img)
    (hmode : img.mode = "RGBA")
    (hx : ∃ p ∈ img.px, p.a < 255) :
    (optimize_image img).mode = "RGBA"
    ∧ (optimize_image img).alphaBand = img.alphaBand := by
  obtain ⟨p, hp, hlt⟩ := hx
  have hmem : p.a ∈ img.alphaBand := List.mem_map.mpr ⟨p, hp, rfl⟩
  have hfix : optimize_image img = img := by
    rw [optimize_image, if_pos hmode,
      if_neg (getextrema_min_below img.alphaBand p.a hmem hlt)]
  rw [hfix, hmode]
  exact ⟨rfl, rfl⟩

theorem optimize_image_keeps_used_alpha_witness :
    (optimize_image ⟨"RGBA", [⟨10, 20, 30, 255⟩, ⟨1, 2, 3, 128⟩]⟩).mode = "RGBA"
    ∧ (optimize_image ⟨"RGBA", [⟨10, 20, 30, 255⟩, ⟨1, 2, 3, 128⟩]⟩).alphaBand
        = [255, 128] := by
  have h := optimize_image_keeps_used_alpha
    ⟨"RGBA", [⟨10, 20, 30, 255⟩, ⟨1, 2, 3, 128⟩]⟩ rfl
    ⟨⟨1, 2, 3, 128⟩, by simp, by decide⟩
  exact ⟨h.1, h.2.trans (by decide)⟩

/-- C9: the per-file transform is idempotent on decoded content: applying
`optimize_image` to its own output changes neither the color mode nor the
pixel values. -/
theorem optimize_image_idempotent (img : Img) :
    optimize_image (optimize_image img) = optimize_image img := by
  by_cases hmode : img.mode = "RGBA"
  · by_cases hext : getextrema img.alphaBand = some (255, 255)
    · have h1 : optimize_image img = img.convertRGB := by
        rw [optimize_image, if_pos hmode, if_pos hext]
      rw [h1, optimize_image]
      simp [Img.convertRGB]
    · have h1 : optimize_image img = img := by
        rw [optimize_image, if_pos hmode, if_neg hext]
      rw [h1, optimize_image, if_pos hmode, if_neg hext]
  · by_cases hrgb : img.mode = "RGB"
    · have h1 : optimize_image img = img := by
        rw [optimize_image, if_neg hmode]
        simp [hrgb]
      rw [h1, h1]
    · have h1 : optimize_image img = img.convertRGB := by
        rw [optimize_image, if_neg hmode, if_pos hrgb]
      rw [h1, optimize_image]
      simp [Img.convertRGB]

/-! ## Text model for the plugin packager

Text is a list of characters.  `splitOnCh` is Python's `str.split(sep)`
(non-overlapping, left to right); it is defined through a fuel parameter so
that it is structurally recursive and evaluates inside the kernel; the fuel
`s.length` always suffices.  `trimCh` is `str.strip()`. -/

/-- Reattach a character to the head piece of a split result. -/
def consHead (c : Char) : List (List Char) → List (List Char)
  | [] => [[c]]
  | p :: ps => (c :: p) :: ps

/-- Worker for `splitOnCh`, structurally recursive on `fuel`.  At each
position: if `sep` starts here, close the current piece and skip `sep`;
otherwise the character joins the current piece. -/
def splitFuel (sep : List Char) : Nat → List Char → List (List Char)
  | _, [] => [[]]
  | 0, s => [s]
  | fuel + 1, c :: rest =>
    if sep.isPrefixOf (c :: rest) then
      [] :: splitFuel sep fuel ((c :: rest).drop sep.length)
    else
      consHead c (splitFuel sep fuel rest)

/-- Python's `s.split(sep)` for a nonempty separator. -/
def splitOnCh (sep s : List Char) : List (List Char) :=
  splitFuel sep s.length s

/-- Separator-interleaved join; the left inverse of `splitOnCh`, used to
state what the split pieces are pieces *of*. -/
def joinSep (sep : List Char) : List (List Char) → List Char
  | [] => []
  | [p] => p
  | p :: q :: ps => p ++ sep ++ joinSep sep (q :: ps)

/-- Python's `s.strip()` (the characters stripped are ASCII whitespace,
which covers every character these scripts are run on). -/
def trimCh (s : List Char) : List Char :=
  ((s.dropWhile Char.isWhitespace).reverse.dropWhile Char.isWhitespace).reverse

/-! ### Split lemmas -/

theorem consHead_ne_nil (c : Char) (l : List (List Char)) : consHead c l ≠ [] := by
  cases l <;> simp [consHead]

theorem splitFuel_ne_nil (sep : List Char) (fuel : Nat) (s : List Char) :
    splitFuel sep fuel s ≠ [] := by
  match fuel, s with
  | fuel, [] => simp [splitFuel]
  | 0, c :: rest => simp [splitFuel]
  | fuel + 1, c :: rest =>
      rw [splitFuel]
      split
      · simp
      · exact consHead_ne_nil _ _

theorem length_consHead (c : Char) (l : List (List Char)) (h : l ≠ []) :
    (consHead c l).length = l.length := by
  cases l with
  | nil => exact absurd rfl h
  | cons p ps => simp [consHead]

theorem joinSep_cons_head (sep : List Char) (c : Char) (p : List Char)
    (ps : List (List Char)) :
    joinSep sep ((c :: p) :: ps) = c :: joinSep sep (p :: ps) := by
  cases ps <;> simp [joinSep]

/-- Joining the split pieces with the separator recovers the original text. -/
theorem joinSep_splitFuel (sep : List Char) (hsep : sep ≠ []) (fuel : Nat) :
    ∀ s : List Char, s.length ≤ fuel →
      joinSep sep (splitFuel sep fuel s) = s := by
  induction fuel with
  | zero =>
      intro s hs
      have : s = [] := List.eq_nil_of_length_eq_zero (Nat.le_zero.mp hs)
      subst this
      simp [splitFuel, joinSep]
  | succ fuel ih =>
      intro s hs
      match s with
      | [] => simp [splitFuel, joinSep]
      | c :: rest =>
          rw [splitFuel]
          by_cases hpre : sep.isPrefixOf (c :: rest)
          · rw [if_pos hpre]
            have hpfx : sep <+: (c :: rest) := by simpa using hpre
            obtain ⟨u, hu⟩ := hpfx
            have hdrop : (c :: rest).drop sep.length = u := by
              rw [← hu]; exact List.drop_left sep u
            have hlen : ((c :: rest).drop sep.length).length ≤ fuel := by
              have hsl : 1 ≤ sep.length := by
                cases sep with
                | nil => exact absurd rfl hsep
                | cons a b => simp
              simp only [List.length_drop, List.length_cons] at *
              omega
            have hne := splitFuel_ne_nil sep fuel ((c :: rest).drop sep.length)
            cases hq : splitFuel sep fuel ((c :: rest).drop sep.length) with
            | nil => exact absurd hq hne
            | cons q qs =>
                have ihq := ih ((c :: rest).drop sep.length) hlen
                rw [hq] at ihq
                calc joinSep sep ([] :: q :: qs)
                    = [] ++ sep ++ joinSep sep (q :: qs) := by simp [joinSep]
                  _ = sep ++ ((c :: rest).drop sep.length) := by rw [ihq]; simp
                  _ = sep ++ u := by rw [hdrop]
                  _ = c :: rest := hu
          · rw [if_neg hpre]
            have hlen : rest.length ≤ fuel := by
              simp only [List.length_cons] at hs; omega
            have hne := splitFuel_ne_nil sep fuel rest
            cases hq : splitFuel sep fuel rest with
            | nil => exact absurd hq hne
            | cons p ps =>
                have ihq := ih rest hlen
                rw [hq] at ihq
                simp only [consHead]
                rw [joinSep_cons_head, ihq]

/-- Any fuel at least `s.length` computes the same split. -/
theorem splitFuel_fuel_irrel (sep : List Char) (hsep : sep ≠ []) :
    ∀ f1 f2 s, s.length ≤ f1 → s.length ≤ f2 →
      splitFuel sep f1 s = splitFuel sep f2 s := by
  intro f1
  induction f1 with
  | zero =>
      intro f2 s h1 h2
      have : s = [] := List.eq_nil_of_length_eq_zero (Nat.le_zero.mp h1)
      subst this
      cases f2 <;> simp [splitFuel]
  | succ f1 ih =>
      intro f2 s h1 h2
      match s with
      | [] => cases f2 <;> simp [splitFuel]
      | c :: rest =>
          have hsl : 1 ≤ sep.length := by
            cases sep with
            | nil => exact absurd rfl hsep
            | cons a b => simp
          match f2 with
          | 0 => simp at h2
          | f2 + 1 =>
              rw [splitFuel, splitFuel]
              by_cases hpre : sep.isPrefixOf (c :: rest)
              · rw [if_pos hpre, if_pos hpre]
                have hd : ((c :: rest).drop sep.length).length ≤ f1 := by
                  simp only [List.length_drop, List.length_cons] at *
                  omega
                have hd2 : ((c :: rest).drop sep.length).length ≤ f2 := by
                  simp only [List.length_drop, List.length_cons] at *
                  omega
                rw [ih f2 _ hd hd2]
              · rw [if_neg hpre, if_neg hpre]
                have hr1 : rest.length ≤ f1 := by
                  simp only [List.length_cons] at h1; omega
                have hr2 : rest.length ≤ f2 := by
                  simp only [List.length_cons] at h2; omega
                rw [ih f2 _ hr1 hr2]

/-- If the separator occurs in `s`, the split has at least two pieces. -/
theorem two_le_splitFuel_length (sep : List Char) (hsep : sep ≠ []) :
    ∀ fuel s, s.length ≤ fuel → sep <:+: s →
      2 ≤ (splitFuel sep fuel s).length := by
  intro fuel
  induction fuel with
  | zero =>
      intro s hs hinf
      have : s = [] := List.eq_nil_of_length_eq_zero (Nat.le_zero.mp hs)
      subst this
      exact absurd (List.eq_nil_of_infix_nil hinf) hsep
  | succ fuel ih =>
      intro s hs hinf
      match s with
      | [] => exact absurd (List.eq_nil_of_infix_nil hinf) hsep
      | c :: rest =>
          rw [splitFuel]
          by_cases hpre : sep.isPrefixOf (c :: rest)
          · rw [if_pos hpre]
            have hne := splitFuel_ne_nil sep fuel ((c :: rest).drop sep.length)
            cases hq : splitFuel sep fuel ((c :: rest).drop sep.length) with
            | nil => exact absurd hq hne
            | cons q qs => simp
          · rw [if_neg hpre]
            rcases List.infix_cons_iff.mp hinf with h | h
            · exact absurd h (by simpa using hpre)
            · have hr : rest.length ≤ fuel := by
                simp only [List.length_cons] at hs; omega
              have h2 := ih rest hr h
              have hne := splitFuel_ne_nil sep fuel rest
              rw [length_consHead c _ hne]
              exact h2

/-- Splitting the text that lies after the first separator occurrence
yields exactly the tail pieces of the original split. -/
theorem splitOnCh_joinSep_drop_one (sep : List Char) (hsep : sep ≠ []) :
    ∀ fuel s, s.length ≤ fuel → 2 ≤ (splitFuel sep fuel s).length →
      splitOnCh sep (joinSep sep ((splitFuel sep fuel s).drop 1))
        = (splitFuel sep fuel s).drop 1 := by
  intro fuel
  induction fuel with
  | zero =>
      intro s hs h2
      have : s = [] := List.eq_nil_of_length_eq_zero (Nat.le_zero.mp hs)
      subst this
      simp [splitFuel] at h2
  | succ fuel ih =>
      intro s hs h2
      match s with
      | [] => simp [splitFuel] at h2
      | c :: rest =>
          rw [splitFuel] at h2 ⊢
          by_cases hpre : sep.isPrefixOf (c :: rest)
          · rw [if_pos hpre] at h2 ⊢
            have hsl : 1 ≤ sep.length := by
              cases sep with
              | nil => exact absurd rfl hsep
              | cons a b => simp
            have hd : ((c :: rest).drop sep.length).length ≤ fuel := by
              simp only [List.length_drop, List.length_cons] at *
              omega
            simp only [List.drop_succ_cons, List.drop_zero]
            rw [joinSep_splitFuel sep hsep fuel _ hd]
            rw [splitOnCh]
            exact splitFuel_fuel_irrel sep hsep _ fuel _ le_rfl hd
          · rw [if_neg hpre] at h2 ⊢
            have hr : rest.length ≤ fuel := by
              simp only [List.length_cons] at hs; omega
            have hne := splitFuel_ne_nil sep fuel rest
            cases hq : splitFuel sep fuel rest with
            | nil => exact absurd hq hne
            | cons p ps =>
                rw [hq] at h2
                rw [length_consHead c _ (by simp)] at h2
                have ihq := ih rest hr (by rw [hq]; exact h2)
                rw [hq] at ihq
                simp only [consHead, List.drop_succ_cons, List.drop_zero] at ihq ⊢
                exact ihq

/-! ## Version extraction (`get_version_from_php`, lines 23-30) -/

/-- The header marker the packager scans for: `'* Version:' in line`. -/
def verMarker : List Char := "* Version:".toList

/-- The split key: `line.split('Version:')`. -/
def verKey : List Char := "Version:".toList

/-- The function `get_version_from_php` from `plugin-files/create-plugin-zip.py`: the
first line containing `* Version:` yields `line.split('Version:')[1].strip()`;
if no line matches, `None`.  (The index-1 piece exists whenever the branch
is taken, so the `getD` default is never used; see
`get_version_eq_betweenOcc`.) -/
def get_version_from_php : List (List Char) → Option (List Char)
  | [] => none
  | line :: rest =>
    if verMarker <:+: line then
      some (trimCh ((splitOnCh verKey line).getD 1 []))
    else get_version_from_php rest

/-- Follows the spec's wording: everything after the first occurrence of
`pat` in `s` (all of `s` if `pat` does not occur). -/
def afterFirstOcc (pat s : List Char) : List Char :=
  joinSep pat ((splitOnCh pat s).drop 1)

/-- Follows the spec's wording: everything before the first occurrence of
`pat` in `s` (all of `s` if `pat` does not occur). -/
def beforeFirstOcc (pat s : List Char) : List Char :=
  (splitOnCh pat s).headD s

/-- The text after the first occurrence of `pat` and before the next
occurrence (if any): the spec-side reading of `s.split(pat)[1]`. -/
def betweenOcc (pat s : List Char) : List Char :=
  beforeFirstOcc pat (afterFirstOcc pat s)

theorem verKey_ne_nil : verKey ≠ [] := by decide

theorem verKey_infix_of_marker (line : List Char) (h : verMarker <:+: line) :
    verKey <:+: line :=
  List.IsInfix.trans (by decide : verKey <:+: verMarker) h

/-- What the code's `line.split('Version:')[1]` is, in the spec's terms:
the text between the first occurrence of `Version:` and the next one. -/
theorem getD_one_eq_betweenOcc (line : List Char) (h : verKey <:+: line) :
    (splitOnCh verKey line).getD 1 [] = betweenOcc verKey line := by
  have h2 : 2 ≤ (splitOnCh verKey line).length :=
    two_le_splitFuel_length verKey verKey_ne_nil line.length line le_rfl h
  have hdrop : splitOnCh verKey (joinSep verKey ((splitOnCh verKey line).drop 1))
      = (splitOnCh verKey line).drop 1 :=
    splitOnCh_joinSep_drop_one verKey verKey_ne_nil line.length line le_rfl h2
  rw [betweenOcc, beforeFirstOcc, afterFirstOcc, hdrop]
  cases hsp : splitOnCh verKey line with
  | nil => rw [hsp] at h2; simp at h2
  | cons a l =>
      cases l with
      | nil => rw [hsp] at h2; simp at h2
      | cons b l' => simp

/-- Lines before the first `* Version:` line are skipped. -/
theorem get_version_skip (pre : List (List Char)) (l : List (List Char))
    (hpre : ∀ x ∈ pre, ¬ (verMarker <:+: x)) :
    get_version_from_php (pre ++ l) = get_version_from_php l := by
  induction pre with
  | nil => rfl
  | cons x xs ih =>
      have hx : ¬ (verMarker <:+: x) := hpre x (by simp)
      simp only [List.cons_append, get_version_from_php, if_neg hx]
      exact ih (fun y hy => hpre y (by simp [hy]))

/-- On the first line containing `* Version:`, the extracted version is the
trimmed text between the first `Version:` and the next occurrence. -/
theorem get_version_eq_betweenOcc (pre : List (List Char)) (line : List Char)
    (post : List (List Char))
    (hpre : ∀ x ∈ pre, ¬ (verMarker <:+: x))
    (hline : verMarker <:+: line) :
    get_version_from_php (pre ++ line :: post)
      = some (trimCh (betweenOcc verKey line)) := by
  rw [get_version_skip pre (line :: post) hpre]
  rw [get_version_from_php, if_pos hline,
    getD_one_eq_betweenOcc line (verKey_infix_of_marker line hline)]

theorem trimCh_all_whitespace (s : List Char) (h : ∀ c ∈ s, c.isWhitespace) :
    trimCh s = [] := by
  have h1 : s.dropWhile Char.isWhitespace = [] :=
    List.dropWhile_eq_nil_iff.mpr h
  simp [trimCh, h1]

/-! ## Packager state model

A zip archive is its ordered list of (entry name, entry bytes) pairs; the
release directory is an association list from file names to archives.  The
packager only ever touches the release directory, so that list is the whole
mutable state of `create_plugin_zip`. -/

structure Archive where
  entries : List (List Char × List Char)
deriving DecidableEq

abbrev Releases := List (List Char × Archive)

/-- Look a file up in the release directory. -/
def getFile : Releases → List Char → Option Archive
  | [], _ => none
  | (n, a) :: rest, k => if n = k then some a else getFile rest k

/-- Python's `os.remove` (also a no-op when the file is absent, matching the
script's `if os.path.exists(...): os.remove(...)` pairing). -/
def removeFile (rs : Releases) (k : List Char) : Releases :=
  rs.filter (fun p => p.1 ≠ k)

/-- Write a file, replacing any previous file of that name. -/
def setFile (rs : Releases) (k : List Char) (a : Archive) : Releases :=
  (k, a) :: removeFile rs k

/-- Configuration constants of `create-plugin-zip.py`. -/
def PLUGIN_NAME : List Char := "ml-wc-practitioners".toList

def PLUGIN_FILE : List Char := "ml-wc-practitioners.php".toList

/-- The name `f"{PLUGIN_NAME}.zip"`. -/
def base_zip : List Char := PLUGIN_NAME ++ ".zip".toList

/-- The name `f"{PLUGIN_NAME}-{version}.zip"`: version used verbatim. -/
def versioned_zip (v : List Char) : List Char :=
  PLUGIN_NAME ++ "-".toList ++ v ++ ".zip".toList

/-- The path `f"{PLUGIN_NAME}/{PLUGIN_FILE}"`: the single archive entry path,
joined with a forward slash. -/
def arcname : List Char := PLUGIN_NAME ++ "/".toList ++ PLUGIN_FILE

/-- Python's `for line in f` on the file's text (universal-newline text mode; the
trailing newline a Python line iterator keeps is whitespace, which every
consumer of these lines strips or ignores). -/
def phpLines (content : List Char) : List (List Char) :=
  splitOnCh ['\n'] content

/-- Outcome of a packager run: normal completion, or `sys.exit(code)`;
both carry the final contents of the release directory. -/
inductive RunResult
  | ok (releases : Releases)
  | exited (code : Nat) (releases : Releases)
deriving DecidableEq

/-- The function `create_plugin_zip` from `plugin-files/create-plugin-zip.py`:
check the plugin file exists, extract the version (`sys.exit(1)` when it
is `None` or empty, Python's `if not version`), remove a stale unversioned
archive, write the unversioned archive with the single entry
`arcname ↦ file bytes`, then copy it byte-for-byte to the versioned name. -/
def create_plugin_zip (phpExists : Bool) (phpContent : List Char)
    (rs : Releases) : RunResult :=
  if phpExists = false then .exited 1 rs
  else
    match get_version_from_php (phpLines phpContent) with
    | none => .exited 1 rs
    | some v =>
      if v = [] then .exited 1 rs
      else
        let rs1 := removeFile rs base_zip
        let arch : Archive := ⟨[(arcname, phpContent)]⟩
        let rs2 := setFile rs1 base_zip arch
        match getFile rs2 base_zip with
        | none => .exited 1 rs2
        | some a => .ok (setFile rs2 (versioned_zip v) a)

/-! ### Release-directory lemmas -/

theorem getFile_setFile_same (rs : Releases) (k : List Char) (a : Archive) :
    getFile (setFile rs k a) k = some a := by
  simp [setFile, getFile]

theorem getFile_removeFile_ne (rs : Releases) (k k' : List Char)
    (h : k' ≠ k) : getFile (removeFile rs k) k' = getFile rs k' := by
  induction rs with
  | nil => rfl
  | cons p ps ih =>
      obtain ⟨n, a⟩ := p
      by_cases hn : n = k
      · subst hn
        have hnk : ¬ (n = k') := fun hc => h (hc ▸ rfl)
        have h1 : removeFile ((n, a) :: ps) n = removeFile ps n := by
          simp [removeFile]
        rw [h1, ih]
        simp [getFile, hnk]
      · by_cases hk' : n = k'
        · subst hk'
          simp [removeFile, getFile, hn]
        · simp [removeFile, getFile, hn, hk']
          simpa [removeFile] using ih

theorem getFile_setFile_ne (rs : Releases) (k k' : List Char) (a : Archive)
    (h : k' ≠ k) : getFile (setFile rs k a) k' = getFile rs k' := by
  have hne : ¬ (k = k') := fun hc => h (hc ▸ rfl)
  simp only [setFile, getFile, if_neg hne]
  exact getFile_removeFile_ne rs k k' h

theorem base_zip_ne_versioned (v : List Char) (hv : v ≠ []) :
    base_zip ≠ versioned_zip v := by
  intro h
  have hlen := congrArg List.length h
  simp only [base_zip, versioned_zip, List.length_append] at hlen
  have : 1 ≤ v.length := by
    cases v with
    | nil => exact absurd rfl hv
    | cons a b => simp
  simp at hlen
  omega

/-! ### Run-shape lemmas for `create_plugin_zip` -/

theorem create_plugin_zip_no_file (c : List Char) (rs : Releases) :
    create_plugin_zip false c rs = .exited 1 rs := by
  rw [create_plugin_zip]
  simp

theorem create_plugin_zip_no_version (c : List Char) (rs : Releases)
    (hv : get_version_from_php (phpLines c) = none) :
    create_plugin_zip true c rs = .exited 1 rs := by
  rw [create_plugin_zip, if_neg (by simp), hv]

theorem create_plugin_zip_empty_version (c : List Char) (rs : Releases)
    (hv : get_version_from_php (phpLines c) = some []) :
    create_plugin_zip true c rs = .exited 1 rs := by
  rw [create_plugin_zip, if_neg (by simp), hv]
  simp

theorem create_plugin_zip_ok (c : List Char) (rs : Releases) (v : List Char)
    (hv : get_version_from_php (phpLines c) = some v) (hne : v ≠ []) :
    create_plugin_zip true c rs
      = .ok (setFile (setFile (removeFile rs base_zip) base_zip
              ⟨[(arcname, c)]⟩) (versioned_zip v) ⟨[(arcname, c)]⟩) := by
  rw [create_plugin_zip, if_neg (by simp), hv]
  simp [hne, getFile_setFile_same]

/-! ### Claims C3, C10, C5, C4 -/

/-- C3: when no line of the plugin source contains `* Version:`, version
extraction yields `None` and the packager exits with status 1 with the
release directory exactly as it was (no archive created, deleted or
modified). -/
theorem packager_no_version_line_exits (c : List Char) (rs : Releases)
    (h : ∀ line ∈ phpLines c, ¬ (verMarker <:+: line)) :
    get_version_from_php (phpLines c) = none
    ∧ create_plugin_zip true c rs = .exited 1 rs := by
  have hv : get_version_from_php (phpLines c) = none := by
    have : ∀ lines : List (List Char), (∀ l ∈ lines, ¬ (verMarker <:+: l)) →
        get_version_from_php lines = none := by
      intro lines
      induction lines with
      | nil => intro _; rfl
      | cons x xs ih =>
          intro hl
          rw [get_version_from_php, if_neg (hl x (by simp))]
          exact ih (fun y hy => hl y (by simp [hy]))
    exact this _ h
  exact ⟨hv, create_plugin_zip_no_version c rs hv⟩

theorem packager_no_version_line_exits_witness :
    get_version_from_php (phpLines "<?php\n// no header\n".toList) = none
    ∧ create_plugin_zip true "<?php\n// no header\n".toList [] = .exited 1 [] :=
  packager_no_version_line_exits "<?php\n// no header\n".toList [] (by decide)

/-- C10: when the first `* Version:` line carries only whitespace after
`Version:`, the extracted version trims to the empty string and the
packager treats it like a missing version: exit status 1 before any
archive is written. -/
theorem packager_empty_version_exits (pre : List (List Char))
    (line : List Char) (post : List (List Char)) (c : List Char)
    (rs : Releases)
    (hpre : ∀ x ∈ pre, ¬ (verMarker <:+: x))
    (hline : verMarker <:+: line)
    (hws : ∀ ch ∈ (splitOnCh verKey line).getD 1 [], ch.isWhitespace)
    (hsplit : phpLines c = pre ++ line :: post) :
    get_version_from_php (phpLines c) = some []
    ∧ create_plugin_zip true c rs = .exited 1 rs := by
  have hv : get_version_from_php (phpLines c) = some [] := by
    rw [hsplit, get_version_skip pre _ hpre, get_version_from_php,
      if_pos hline, trimCh_all_whitespace _ hws]
  exact ⟨hv, create_plugin_zip_empty_version c rs hv⟩

theorem packager_empty_version_exits_witness :
    get_version_from_php (phpLines "* Version:   ".toList) = some []
    ∧ create_plugin_zip true "* Version:   ".toList [] = .exited 1 [] :=
  packager_empty_version_exits [] "* Version:   ".toList [] "* Version:   ".toList
    [] (by simp) (by decide) (by decide) (by decide)

/-- C5: every successful packager run leaves the unversioned archive
`<plugin-name>.zip` and the versioned archive `<plugin-name>-<version>.zip`
in the release directory with identical contents, differing only in file
name. -/
theorem packager_archives_identical (phpExists : Bool) (c : List Char)
    (rs rs' : Releases)
    (h : create_plugin_zip phpExists c rs = .ok rs') :
    ∃ v a, get_version_from_php (phpLines c) = some v
      ∧ getFile rs' base_zip = some a
      ∧ getFile rs' (versioned_zip v) = some a := by
  cases phpExists with
  | false => rw [create_plugin_zip_no_file c rs] at h; cases h
  | true =>
      cases hv : get_version_from_php (phpLines c) with
      | none => rw [create_plugin_zip_no_version c rs hv] at h; cases h
      | some v =>
          by_cases hne : v = []
          · subst hne
            rw [create_plugin_zip_empty_version c rs hv] at h
            cases h
          · rw [create_plugin_zip_ok c rs v hv hne] at h
            have hrs' : rs' = setFile (setFile (removeFile rs base_zip)
                base_zip ⟨[(arcname, c)]⟩) (versioned_zip v)
                ⟨[(arcname, c)]⟩ := by
              cases h
              rfl
            refine ⟨v, ⟨[(arcname, c)]⟩, rfl, ?_, ?_⟩
            · rw [hrs',
                getFile_setFile_ne _ _ _ _ (base_zip_ne_versioned v hne),
                getFile_setFile_same]
            · rw [hrs', getFile_setFile_same]

theorem packager_archives_identical_witness :
    ∃ v a, get_version_from_php (phpLines "* Version: 1.0".toList) = some v
      ∧ getFile [(versioned_zip "1.0".toList,
            ⟨[(arcname, "* Version: 1.0".toList)]⟩),
          (base_zip, ⟨[(arcname, "* Version: 1.0".toList)]⟩)] base_zip = some a
      ∧ getFile [(versioned_zip "1.0".toList,
            ⟨[(arcname, "* Version: 1.0".toList)]⟩),
          (base_zip, ⟨[(arcname, "* Version: 1.0".toList)]⟩)]
          (versioned_zip v) = some a :=
  packager_archives_identical true "* Version: 1.0".toList []
    [(versioned_zip "1.0".toList, ⟨[(arcname, "* Version: 1.0".toList)]⟩),
      (base_zip, ⟨[(arcname, "* Version: 1.0".toList)]⟩)] (by decide)

/-- C4 as stated is false: on the line `* Version: 1.0 Version: 2.0` the
code's `line.split('Version:')[1].strip()` stops at the second
`Version:` and extracts `1.0`, not everything after `Version:` (which,
trimmed, is `1.0 Version: 2.0`). -/
theorem version_not_everything_after :
    get_version_from_php ["* Version: 1.0 Version: 2.0".toList]
      = some "1.0".toList
    ∧ trimCh (afterFirstOcc verKey "* Version: 1.0 Version: 2.0".toList)
      = "1.0 Version: 2.0".toList
    ∧ "1.0".toList ≠ "1.0 Version: 2.0".toList := by
  refine ⟨by decide, by decide, by decide⟩

/-- C4 amended: the version is taken from the first line containing
`* Version:` as the text after the first `Version:` on that line and
before the next occurrence of `Version:` if any, trimmed; in particular a
header `* Version: 2.3.1` yields `2.3.1` and the versioned archive name
`ml-wc-practitioners-2.3.1.zip` (version verbatim, no `v` prefix). -/
theorem version_between_occurrences (pre : List (List Char))
    (line : List Char) (post : List (List Char))
    (hpre : ∀ x ∈ pre, ¬ (verMarker <:+: x))
    (hline : verMarker <:+: line) :
    get_version_from_php (pre ++ line :: post)
      = some (trimCh (betweenOcc verKey line))
    ∧ get_version_from_php
        ["/*".toList, " * Version: 2.3.1".toList, " */".toList]
      = some "2.3.1".toList
    ∧ versioned_zip "2.3.1".toList
      = "ml-wc-practitioners-2.3.1.zip".toList :=
  ⟨get_version_eq_betweenOcc pre line post hpre hline, by decide, by decide⟩

theorem version_between_occurrences_witness :
    get_version_from_php ["* Version: 9".toList]
      = some (trimCh (betweenOcc verKey "* Version: 9".toList))
    ∧ get_version_from_php
        ["/*".toList, " * Version: 2.3.1".toList, " */".toList]
      = some "2.3.1".toList
    ∧ versioned_zip "2.3.1".toList
      = "ml-wc-practitioners-2.3.1.zip".toList :=
  version_between_occurrences [] "* Version: 9".toList [] (by simp) (by decide)

/-! ## Image archive construction (optimize-images.py, lines 72-75)

The optimized-output directory at archive-build time is a listing of
(filename, bytes) pairs; each filename is a single path component of the
directory.  `Path(dir).glob("*.png")` matches exactly the names ending in
`.png` (the pattern is anchored, case-sensitive on POSIX, and `pathlib`'s
glob does not exclude dot-files), and `zf.write(p, p.name)` stores the
bare filename as the entry path. -/

def pngSuffix : List Char := ".png".toList

def images_zip (dir : List (List Char × List Char)) : Archive :=
  ⟨dir.filter (fun f => pngSuffix.isSuffixOf f.1)⟩

/-! ## Optimizer run arithmetic and exit status (optimize-images.py, main)

Byte sizes are rationals (the script divides them by 1024 into `float`s;
only zero-ness of the divisors matters to the claims).  `pydiv` is
Python's `/`, which raises `ZeroDivisionError` on a zero divisor — also
for floats.  The PNG encoder's output size is not determined by the pixel
data alone, so it enters as a parameter `encSize`. -/

def pydiv (a b : ℚ) : Option ℚ :=
  if b = 0 then none else some (a / b)

/-- Line 59: `((orig_size - opt_size) / orig_size) * 100 if orig_size > 0
else 0` — the division is guarded. -/
def per_file_savings (orig opt : ℚ) : Option ℚ :=
  if 0 < orig then (pydiv (orig - opt) orig).map (fun q => q * 100) else some 0

/-- Line 67: `((total_original - total_optimized) / total_original) * 100`
— unguarded. -/
def total_savings_pct (torig topt : ℚ) : Option ℚ :=
  (pydiv (torig - topt) torig).map (fun q => q * 100)

/-- Uncaught Python exceptions the optimizer can die of. -/
inductive PyFault
  | unidentifiedImage
  | zeroDivision
deriving DecidableEq

/-- One file of the source directory: its name, the image it decodes to
(`none` when `Image.open` fails: corrupt or zero-byte file), and its size
in KB. -/
structure SrcFile where
  name : List Char
  decoded : Option Img
  sizeKB : ℚ

/-- The per-file loop of `main` (lines 52-62): decode, optimize, compute
the guarded per-file savings, accumulate the two size totals. -/
def processFiles (encSize : Img → ℚ) :
    ℚ × ℚ → List SrcFile → Except PyFault (ℚ × ℚ)
  | acc, [] => .ok acc
  | acc, f :: rest =>
    match f.decoded with
    | none => .error .unidentifiedImage
    | some img =>
      match per_file_savings f.sizeKB (encSize (optimize_image img)) with
      | none => .error .zeroDivision
      | some _ =>
          processFiles encSize
            (acc.1 + f.sizeKB, acc.2 + encSize (optimize_image img)) rest

/-- The run of `main` up to and including the aggregate report (line 67): the loop,
then the unguarded total-savings percentage; returns that percentage or
the first uncaught fault. -/
def mainOptimizer (encSize : Img → ℚ) (src : List SrcFile) :
    Except PyFault ℚ :=
  match processFiles encSize (0, 0) src with
  | .error e => .error e
  | .ok (torig, topt) =>
    match total_savings_pct torig topt with
    | none => .error .zeroDivision
    | some pct => .ok pct

/-- Process exit status: 0 on completion, 1 (CPython's status for an
uncaught exception) on a fault. -/
def optimizerExitCode (encSize : Img → ℚ) (src : List SrcFile) : Nat :=
  match mainOptimizer encSize src with
  | .ok _ => 0
  | .error _ => 1

/-! ### Claims C6, C7, C8 -/

theorem images_zip_names (dir : List (List Char × List Char)) :
    (images_zip dir).entries.map Prod.fst
      = (dir.map Prod.fst).filter (fun n => pngSuffix.isSuffixOf n) := by
  induction dir with
  | nil => rfl
  | cons x xs ih =>
      simp only [images_zip, List.map_cons, List.filter_cons] at ih ⊢
      by_cases hp : (pngSuffix.isSuffixOf x.1) = true
      · simp [hp, ih]
      · simp [hp, ih]

/-- C6 as stated is false on POSIX hosts: a file legally named `a\b.png`
in the output directory is matched by `glob("*.png")` and archived under
its bare filename, which contains a backslash. -/
theorem images_zip_backslash_entry :
    (images_zip [("a\\b.png".toList, "bytes".toList)]).entries
      = [("a\\b.png".toList, "bytes".toList)]
    ∧ '\\' ∈ "a\\b.png".toList := by
  exact ⟨by decide, by decide⟩

/-- C6 amended: the image archive's entries are exactly the bare filenames
of the `.png`-suffixed files present in the output directory at
archive-build time, and contain no backslash whenever the filenames
themselves contain none (as on hosts whose filenames cannot contain a
backslash); the plugin archive's single entry is the constant
`<plugin-name>/<filename>` joined with a forward slash, which contains no
backslash. -/
theorem archive_entries_bare_filenames (dir : List (List Char × List Char))
    (pe : Bool) (c : List Char) (rs rs' : Releases)
    (hnb : ∀ n ∈ dir.map Prod.fst, ¬ ('\\' ∈ n))
    (hok : create_plugin_zip pe c rs = .ok rs') :
    (images_zip dir).entries.map Prod.fst
      = (dir.map Prod.fst).filter (fun n => pngSuffix.isSuffixOf n)
    ∧ (∀ e ∈ (images_zip dir).entries, ¬ ('\\' ∈ e.1))
    ∧ ¬ ('\\' ∈ arcname)
    ∧ getFile rs' base_zip = some ⟨[(arcname, c)]⟩ := by
  refine ⟨images_zip_names dir, ?_, by decide, ?_⟩
  · intro e he
    simp only [images_zip] at he
    have hmem : e ∈ dir := List.mem_of_mem_filter he
    exact hnb e.1 (List.mem_map.mpr ⟨e, hmem, rfl⟩)
  · cases pe with
    | false => rw [create_plugin_zip_no_file c rs] at hok; cases hok
    | true =>
        cases hv : get_version_from_php (phpLines c) with
        | none => rw [create_plugin_zip_no_version c rs hv] at hok; cases hok
        | some v =>
            by_cases hne : v = []
            · subst hne
              rw [create_plugin_zip_empty_version c rs hv] at hok
              cases hok
            · rw [create_plugin_zip_ok c rs v hv hne] at hok
              cases hok
              rw [getFile_setFile_ne _ _ _ _ (base_zip_ne_versioned v hne),
                getFile_setFile_same]

theorem archive_entries_bare_filenames_witness :
    (images_zip [("a.png".toList, "d".toList),
        ("b.txt".toList, "e".toList)]).entries.map Prod.fst
      = ([("a.png".toList, "d".toList),
          ("b.txt".toList, "e".toList)].map Prod.fst).filter
          (fun n => pngSuffix.isSuffixOf n)
    ∧ (∀ e ∈ (images_zip [("a.png".toList, "d".toList),
        ("b.txt".toList, "e".toList)]).entries, ¬ ('\\' ∈ e.1))
    ∧ ¬ ('\\' ∈ arcname)
    ∧ getFile [(versioned_zip "1.1".toList,
          ⟨[(arcname, "* Version: 1.1".toList)]⟩),
        (base_zip, ⟨[(arcname, "* Version: 1.1".toList)]⟩)] base_zip
      = some ⟨[(arcname, "* Version: 1.1".toList)]⟩ :=
  archive_entries_bare_filenames
    [("a.png".toList, "d".toList), ("b.txt".toList, "e".toList)]
    true "* Version: 1.1".toList []
    [(versioned_zip "1.1".toList, ⟨[(arcname, "* Version: 1.1".toList)]⟩),
      (base_zip, ⟨[(arcname, "* Version: 1.1".toList)]⟩)]
    (by decide) (by decide)

/-- C7 as stated is false: the per-file percentage computation is guarded
by `if orig_size > 0`, so at a zero original size it yields 0 without
dividing. -/
theorem per_file_savings_no_fault :
    per_file_savings 0 5 = some 0 := by decide

/-- C7 amended: for a zero-size source file the per-file percentage is
explicitly guarded and yields 0 without dividing; the unrecovered faults
are elsewhere: `Image.open` fails on an unreadable (e.g. zero-byte) file,
and the aggregate savings percentage at the end of the run divides by
zero whenever the cumulative original size is zero. -/
theorem zero_size_faults_not_per_file (p tp : ℚ) (encSize : Img → ℚ)
    (nm : List Char) (img : Img) :
    per_file_savings 0 p = some 0
    ∧ total_savings_pct 0 tp = none
    ∧ mainOptimizer encSize [⟨nm, none, 0⟩] = .error .unidentifiedImage
    ∧ mainOptimizer encSize [⟨nm, some img, 0⟩] = .error .zeroDivision := by
  refine ⟨?_, ?_, ?_, ?_⟩
  · simp [per_file_savings]
  · simp [total_savings_pct, pydiv]
  · simp [mainOptimizer, processFiles]
  · simp [mainOptimizer, processFiles, per_file_savings, total_savings_pct,
      pydiv]

theorem per_file_savings_isSome (o p : ℚ) :
    ∃ q, per_file_savings o p = some q := by
  rw [per_file_savings]
  by_cases h : 0 < o
  · rw [if_pos h, pydiv, if_neg h.ne']
    exact ⟨_, rfl⟩
  · rw [if_neg h]
    exact ⟨0, rfl⟩

theorem processFiles_all_decoded (encSize : Img → ℚ) (src : List SrcFile)
    (hdec : ∀ f ∈ src, f.decoded.isSome) :
    ∀ acc : ℚ × ℚ, ∃ topt,
      processFiles encSize acc src
        = .ok (acc.1 + (src.map SrcFile.sizeKB).sum, topt) := by
  induction src with
  | nil =>
      intro acc
      exact ⟨acc.2, by simp [processFiles]⟩
  | cons f fs ih =>
      intro acc
      obtain ⟨img, himg⟩ := Option.isSome_iff_exists.mp (hdec f (by simp))
      obtain ⟨q, hq⟩ :=
        per_file_savings_isSome f.sizeKB (encSize (optimize_image img))
      obtain ⟨t, ht⟩ := ih (fun g hg => hdec g (by simp [hg]))
        (acc.1 + f.sizeKB, acc.2 + encSize (optimize_image img))
      refine ⟨t, ?_⟩
      simp only [processFiles, himg, hq]
      rw [ht]
      simp [add_assoc]

/-- C8 as stated is false (an empty source directory makes the run die of
the aggregate division by zero, and an undecodable file of the decode
fault, both nonzero exits); amended: the optimizer exits 0 on every run in
which all source files decode and the cumulative original size is nonzero,
and exits 1 in the unhandled error cases. -/
theorem optimizer_exit_codes (encSize : Img → ℚ) (src : List SrcFile)
    (hdec : ∀ f ∈ src, f.decoded.isSome)
    (hpos : (src.map SrcFile.sizeKB).sum ≠ 0) :
    optimizerExitCode encSize src = 0
    ∧ optimizerExitCode encSize [] = 1
    ∧ optimizerExitCode encSize
        [⟨"x.png".toList, none, 5⟩] = 1 := by
  refine ⟨?_, ?_, ?_⟩
  · obtain ⟨t, ht⟩ := processFiles_all_decoded encSize src hdec (0, 0)
    rw [optimizerExitCode, mainOptimizer, ht]
    simp [total_savings_pct, pydiv, hpos]
  · simp [optimizerExitCode, mainOptimizer, processFiles, total_savings_pct,
      pydiv]
  · simp [optimizerExitCode, mainOptimizer, processFiles]

/-- C8's universal claim fails already on the empty source directory:
`images/` with no PNG makes line 67 divide `0.0` by `0.0`, the
`ZeroDivisionError` is uncaught, and the process exits 1, not 0. -/
theorem optimizer_exit_nonzero_empty_dir :
    optimizerExitCode (fun _ => 0) [] = 1 := by
  simp [optimizerExitCode, mainOptimizer, processFiles, total_savings_pct,
    pydiv]

theorem optimizer_exit_codes_witness :
    optimizerExitCode (fun _ => 0)
      [⟨"a.png".toList, some ⟨"RGB", [⟨1, 2, 3, 255⟩]⟩, 1⟩] = 0
    ∧ optimizerExitCode (fun _ => 0) [] = 1
    ∧ optimizerExitCode (fun _ => 0) [⟨"x.png".toList, none, 5⟩] = 1 :=
  optimizer_exit_codes (fun _ => 0)
    [⟨"a.png".toList, some ⟨"RGB", [⟨1, 2, 3, 255⟩]⟩, 1⟩]
    (by decide) (by simp)

end MLWC
